import Mathlib

/-!
Verification of the `sync_lru` crate: a bounded, thread-safe LRU cache
(`LruCache<K, V>`) backed by a `Mutex<HashMap<K, CacheEntry<V>>>`.

Embedding choices:
* The guarded `HashMap` is modelled as an association list in iteration
  order (a `HashMap`'s iteration order is arbitrary; the list order plays
  that role, so tie-breaking in the eviction scan is by list order, which
  matches `Iterator::min_by_key` returning the first minimal element).
* `time::precise_time_ns()` is modelled by an explicit `now : Nat`
  argument supplied to each operation.
* `Arc<V>` is modelled by the value `V` itself: handles are read-only, so
  value semantics is faithful.
* The `assert!` in `with_limit` and the `unwrap` on the eviction scan in
  `insert` are panics; fallibility is modelled with `Option` (`none` =
  panic).
* Each operation holds the single lock for its whole duration, so an
  execution is a sequence of atomic operations (`Op`); `run` replays one.
-/

set_option autoImplicit false
set_option linter.unusedSectionVars false

namespace SyncLru

/-- `CacheEntry<V>`: `last_access: u64` (a monotonic-clock reading) and
`arc: Arc<V>` (the shared handle). -/
structure CacheEntry (V : Type) where
  last_access : Nat
  arc : V
deriving DecidableEq

/-- `LruCache<K, V>`: the fixed `limit` and the guarded `map`. -/
structure LruCache (K V : Type) where
  limit : Nat
  map : List (K × CacheEntry V)
deriving DecidableEq

variable {K V : Type} [DecidableEq K]

/-- `HashMap::get`/`get_mut` on the association list: the entry stored at
the key (the first occurrence; keys are unique in reachable states). -/
def lookupEntry : List (K × CacheEntry V) → K → Option (CacheEntry V)
  | [], _ => none
  | (k', e) :: rest, k => if k' = k then some e else lookupEntry rest k

/-- `HashMap::remove`: drop the entry stored at the key. -/
def removeKey : List (K × CacheEntry V) → K → List (K × CacheEntry V)
  | [], _ => []
  | (k', e) :: rest, k => if k' = k then rest else (k', e) :: removeKey rest k

/-- `hash_map::Entry::Occupied(entry).insert(new)`: replace the entry
stored at the key, keeping its position. -/
def replaceEntry : List (K × CacheEntry V) → K → CacheEntry V → List (K × CacheEntry V)
  | [], _, _ => []
  | (k', e') :: rest, k, e =>
    if k' = k then (k', e) :: rest else (k', e') :: replaceEntry rest k e

/-- `entry.last_access = now` through `get_mut`: refresh the timestamp of
the entry stored at the key, in place. -/
def touchEntry : List (K × CacheEntry V) → K → Nat → List (K × CacheEntry V)
  | [], _, _ => []
  | (k', e) :: rest, k, now =>
    if k' = k then (k', { e with last_access := now }) :: rest
    else (k', e) :: touchEntry rest k now

/-- `map.iter().min_by_key(|&(_, entry)| entry.last_access)`: the first
entry in iteration order with minimal `last_access`. -/
def minByLastAccess : List (K × CacheEntry V) → Option (K × CacheEntry V)
  | [] => none
  | p :: rest =>
    match minByLastAccess rest with
    | none => some p
    | some q => if p.2.last_access ≤ q.2.last_access then some p else some q

/-- `LruCache::with_limit(limit)`. `assert!(limit != 0)` aborts on zero,
modelled as `none`; otherwise the cache starts with an empty map
(`with_capacity` is only an allocation hint). -/
def with_limit (K V : Type) (limit : Nat) : Option (LruCache K V) :=
  if limit ≠ 0 then some { limit := limit, map := [] } else none

/-- `LruCache::get(&self, k)`, with the clock reading `now`. On a hit the
entry's `last_access` is refreshed to `now` and a clone of its handle is
returned, in the same lock acquisition (one atomic step here); on a miss
nothing changes. -/
def LruCache.get (c : LruCache K V) (now : Nat) (k : K) :
    Option V × LruCache K V :=
  match lookupEntry c.map k with
  | some entry => (some entry.arc, { c with map := touchEntry c.map k now })
  | none => (none, c)

/-- The eviction step of `insert` (lines 44–47): if `map.len() == limit`,
remove the entry with minimal `last_access` — the code does not check
whether the inserted key is already present. The `unwrap` on the scan is
modelled by `Option` (`none` = panic, possible only on an empty map). -/
def evictIfFull (c : LruCache K V) : Option (List (K × CacheEntry V)) :=
  if c.map.length = c.limit then
    match minByLastAccess c.map with
    | none => none
    | some oldest => some (removeKey c.map oldest.1)
  else
    some c.map

/-- The entry-API step of `insert` (lines 49–57): `map.entry(k)` —
occupied replaces in place and yields the old entry, vacant stores the new
entry (a `HashMap` puts it at an arbitrary position; appended here).
Returns `(old_entry.map(.arc), updated map)`. -/
def storeEntry (m : List (K × CacheEntry V)) (k : K) (e : CacheEntry V) :
    Option V × List (K × CacheEntry V) :=
  match lookupEntry m k with
  | some old => (some old.arc, replaceEntry m k e)
  | none => (none, m ++ [(k, e)])

/-- `LruCache::insert(&self, k, v)`, with the clock reading `now` (taken
once, at function entry, for the fresh entry's `last_access`). -/
def LruCache.insert (c : LruCache K V) (now : Nat) (k : K) (v : V) :
    Option (Option V × LruCache K V) :=
  let new_entry : CacheEntry V := { last_access := now, arc := v }
  match evictIfFull c with
  | none => none
  | some m =>
    some ((storeEntry m k new_entry).1, { c with map := (storeEntry m k new_entry).2 })

/-- One client call: an insertion or a lookup, with its clock reading. -/
inductive Op (K V : Type) where
  | ins (now : Nat) (k : K) (v : V)
  | read (now : Nat) (k : K)
deriving DecidableEq

/-- The clock reading of a call. -/
def opTime {K V : Type} : Op K V → Nat
  | .ins now _ _ => now
  | .read now _ => now

/-- Execute one call against the cache (`none` = the call panicked). -/
def runStep (c : LruCache K V) : Op K V → Option (LruCache K V)
  | .ins now k v => (c.insert now k v).map Prod.snd
  | .read now k => some (c.get now k).2

/-- Execute a sequence of calls (operations are serialized by the single
lock, so any concurrent history linearizes to such a sequence). -/
def run (c : LruCache K V) : List (Op K V) → Option (LruCache K V)
  | [] => some c
  | op :: rest =>
    match runStep c op with
    | some c' => run c' rest
    | none => none

/-- The call `op`, issued against state `c`, touches key `k`: it is an
insertion of `k` (which stores a fresh entry timestamped at the call's
clock reading) or a lookup of `k` that hits (which refreshes
`last_access` to the call's clock reading). -/
def touchesOp (c : LruCache K V) (op : Op K V) (k : K) : Prop :=
  match op with
  | .ins _ k' _ => k' = k
  | .read _ k' => k' = k ∧ lookupEntry c.map k ≠ none

/-- Starting from state `c`, no call in the sequence touches key `k`. -/
def noTouchRun (c : LruCache K V) : List (Op K V) → K → Prop
  | [], _ => True
  | op :: rest, k =>
    ¬ touchesOp c op k ∧ ∀ c', runStep c op = some c' → noTouchRun c' rest k

/-! ### Association-list lemmas -/

theorem lookupEntry_eq_none_iff {m : List (K × CacheEntry V)} {k : K} :
    lookupEntry m k = none ↔ k ∉ m.map Prod.fst := by
  induction m with
  | nil => simp [lookupEntry]
  | cons p rest ih =>
    obtain ⟨k', e⟩ := p
    by_cases hk : k' = k
    · subst hk
      simp [lookupEntry]
    · simp [lookupEntry, hk, ih, Ne.symm hk]

theorem lookupEntry_append_self {m : List (K × CacheEntry V)} {k : K}
    {e : CacheEntry V} (h : lookupEntry m k = none) :
    lookupEntry (m ++ [(k, e)]) k = some e := by
  induction m with
  | nil => simp [lookupEntry]
  | cons p rest ih =>
    obtain ⟨k', e'⟩ := p
    by_cases hk : k' = k
    · simp [lookupEntry, hk] at h
    · simp only [lookupEntry, hk, if_false, List.cons_append] at *
      simp [lookupEntry, hk, ih h]

theorem lookupEntry_append_other {m : List (K × CacheEntry V)} {j k : K}
    {e : CacheEntry V} (h : j ≠ k) :
    lookupEntry (m ++ [(j, e)]) k = lookupEntry m k := by
  induction m with
  | nil => simp [lookupEntry, h]
  | cons p rest ih =>
    obtain ⟨k', e'⟩ := p
    by_cases hk : k' = k <;> simp [lookupEntry, hk, ih]

theorem lookupEntry_replaceEntry_self {m : List (K × CacheEntry V)} {k : K}
    {old e : CacheEntry V} (h : lookupEntry m k = some old) :
    lookupEntry (replaceEntry m k e) k = some e := by
  induction m with
  | nil => simp [lookupEntry] at h
  | cons p rest ih =>
    obtain ⟨k', e'⟩ := p
    by_cases hk : k' = k
    · simp [replaceEntry, hk, lookupEntry]
    · simp only [lookupEntry, hk, if_false] at h
      simp [replaceEntry, hk, lookupEntry, ih h]

theorem lookupEntry_replaceEntry_other {m : List (K × CacheEntry V)} {j k : K}
    {e : CacheEntry V} (h : j ≠ k) :
    lookupEntry (replaceEntry m j e) k = lookupEntry m k := by
  induction m with
  | nil => simp [replaceEntry]
  | cons p rest ih =>
    obtain ⟨k', e'⟩ := p
    by_cases hj : k' = j
    · subst hj
      simp [replaceEntry, lookupEntry, h]
    · by_cases hk : k' = k <;> simp [replaceEntry, hj, lookupEntry, hk, ih, Ne.symm h]

theorem lookupEntry_touchEntry_self {m : List (K × CacheEntry V)} {k : K}
    {old : CacheEntry V} (now : Nat) (h : lookupEntry m k = some old) :
    lookupEntry (touchEntry m k now) k = some { last_access := now, arc := old.arc } := by
  induction m with
  | nil => simp [lookupEntry] at h
  | cons p rest ih =>
    obtain ⟨k', e'⟩ := p
    by_cases hk : k' = k
    · simp only [lookupEntry, hk, if_true, Option.some.injEq] at h
      subst h
      simp [touchEntry, hk, lookupEntry]
    · simp only [lookupEntry, hk, if_false] at h
      simp [touchEntry, hk, lookupEntry, ih h]

theorem lookupEntry_touchEntry_other {m : List (K × CacheEntry V)} {j k : K}
    (now : Nat) (h : j ≠ k) :
    lookupEntry (touchEntry m j now) k = lookupEntry m k := by
  induction m with
  | nil => simp [touchEntry]
  | cons p rest ih =>
    obtain ⟨k', e'⟩ := p
    by_cases hj : k' = j
    · subst hj
      simp [touchEntry, lookupEntry, h]
    · by_cases hk : k' = k <;> simp [touchEntry, hj, lookupEntry, hk, ih, Ne.symm h]

theorem lookupEntry_removeKey_other {m : List (K × CacheEntry V)} {j k : K}
    (h : j ≠ k) :
    lookupEntry (removeKey m j) k = lookupEntry m k := by
  induction m with
  | nil => simp [removeKey]
  | cons p rest ih =>
    obtain ⟨k', e'⟩ := p
    by_cases hj : k' = j
    · subst hj
      simp [removeKey, lookupEntry, h]
    · by_cases hk : k' = k <;> simp [removeKey, hj, lookupEntry, hk, ih, Ne.symm h]

theorem lookupEntry_removeKey_none {m : List (K × CacheEntry V)} {j k : K}
    (h : lookupEntry m k = none) :
    lookupEntry (removeKey m j) k = none := by
  by_cases hj : j = k
  · subst hj
    induction m with
    | nil => simp [removeKey, lookupEntry]
    | cons p rest ih =>
      obtain ⟨k', e'⟩ := p
      by_cases hk : k' = j
      · simp [lookupEntry, hk] at h
      · simp only [lookupEntry, hk, if_false] at h
        simp [removeKey, hk, lookupEntry, ih h]
  · rw [lookupEntry_removeKey_other hj]
    exact h

theorem lookupEntry_removeKey_self {m : List (K × CacheEntry V)} {k : K}
    (h : (m.map Prod.fst).Nodup) :
    lookupEntry (removeKey m k) k = none := by
  induction m with
  | nil => simp [removeKey, lookupEntry]
  | cons p rest ih =>
    obtain ⟨k', e'⟩ := p
    simp only [List.map_cons, List.nodup_cons] at h
    by_cases hk : k' = k
    · subst hk
      simp only [removeKey, if_true]
      exact lookupEntry_eq_none_iff.mpr h.1
    · simp [removeKey, hk, lookupEntry, ih h.2]

theorem length_replaceEntry (m : List (K × CacheEntry V)) (k : K)
    (e : CacheEntry V) : (replaceEntry m k e).length = m.length := by
  induction m with
  | nil => rfl
  | cons p rest ih =>
    obtain ⟨k', e'⟩ := p
    by_cases hk : k' = k <;> simp [replaceEntry, hk, ih]

theorem length_touchEntry (m : List (K × CacheEntry V)) (k : K) (now : Nat) :
    (touchEntry m k now).length = m.length := by
  induction m with
  | nil => rfl
  | cons p rest ih =>
    obtain ⟨k', e'⟩ := p
    by_cases hk : k' = k <;> simp [touchEntry, hk, ih]

theorem keys_replaceEntry (m : List (K × CacheEntry V)) (k : K)
    (e : CacheEntry V) :
    (replaceEntry m k e).map Prod.fst = m.map Prod.fst := by
  induction m with
  | nil => rfl
  | cons p rest ih =>
    obtain ⟨k', e'⟩ := p
    by_cases hk : k' = k
    · subst hk
      simp [replaceEntry]
    · simp [replaceEntry, hk, ih]

theorem keys_touchEntry (m : List (K × CacheEntry V)) (k : K) (now : Nat) :
    (touchEntry m k now).map Prod.fst = m.map Prod.fst := by
  induction m with
  | nil => rfl
  | cons p rest ih =>
    obtain ⟨k', e'⟩ := p
    by_cases hk : k' = k
    · subst hk
      simp [touchEntry]
    · simp [touchEntry, hk, ih]

theorem keys_removeKey_sublist (m : List (K × CacheEntry V)) (k : K) :
    List.Sublist ((removeKey m k).map Prod.fst) (m.map Prod.fst) := by
  induction m with
  | nil => simp [removeKey]
  | cons p rest ih =>
    obtain ⟨k', e'⟩ := p
    by_cases hk : k' = k
    · simp only [removeKey, hk, if_true, List.map_cons]
      exact (List.sublist_cons_self _ _)
    · simp only [removeKey, hk, if_false, List.map_cons]
      exact ih.cons₂ _

theorem length_removeKey_of_mem {m : List (K × CacheEntry V)} {k : K}
    (h : k ∈ m.map Prod.fst) : (removeKey m k).length + 1 = m.length := by
  induction m with
  | nil => simp at h
  | cons p rest ih =>
    obtain ⟨k', e'⟩ := p
    by_cases hk : k' = k
    · simp [removeKey, hk]
    · simp only [List.map_cons, List.mem_cons] at h
      rcases h with h | h
    -- `h : k = k'` contradicts `hk`
      · exact absurd h.symm hk
      · simp only [removeKey, hk, if_false, List.length_cons]
        rw [← ih h]

/-! ### Eviction-scan lemmas -/

theorem minByLastAccess_ne_none {m : List (K × CacheEntry V)} (h : m ≠ []) :
    ∃ p, minByLastAccess m = some p := by
  cases m with
  | nil => exact absurd rfl h
  | cons a rest =>
    rw [minByLastAccess]
    cases minByLastAccess rest with
    | none => exact ⟨a, rfl⟩
    | some q =>
      by_cases hle : a.2.last_access ≤ q.2.last_access
      · exact ⟨a, by simp [hle]⟩
      · exact ⟨q, by simp [hle]⟩

theorem minByLastAccess_mem : ∀ {m : List (K × CacheEntry V)}
    {p : K × CacheEntry V}, minByLastAccess m = some p → p ∈ m := by
  intro m
  induction m with
  | nil => intro p h; simp [minByLastAccess] at h
  | cons a rest ih =>
    intro p h
    cases hr : minByLastAccess rest with
    | none =>
      simp only [minByLastAccess, hr] at h
      injection h with h
      rw [← h]
      exact List.mem_cons_self a rest
    | some q =>
      simp only [minByLastAccess, hr] at h
      by_cases hle : a.2.last_access ≤ q.2.last_access
      · rw [if_pos hle] at h
        injection h with h
        rw [← h]
        exact List.mem_cons_self a rest
      · rw [if_neg hle] at h
        injection h with h
        rw [← h]
        exact List.mem_cons_of_mem a (ih hr)

theorem minByLastAccess_le : ∀ {m : List (K × CacheEntry V)}
    {p : K × CacheEntry V}, minByLastAccess m = some p →
    ∀ q ∈ m, p.2.last_access ≤ q.2.last_access := by
  intro m
  induction m with
  | nil => intro p h q hq; simp at hq
  | cons a rest ih =>
    intro p h q hq
    cases hr : minByLastAccess rest with
    | none =>
      have hrest : rest = [] := by
        by_contra hne
        obtain ⟨r, hrr⟩ := minByLastAccess_ne_none hne
        rw [hrr] at hr
        exact Option.noConfusion hr
      subst hrest
      simp only [minByLastAccess] at h
      injection h with h
      simp only [List.mem_singleton] at hq
      rw [← h, hq]
    | some r =>
      simp only [minByLastAccess, hr] at h
      rcases List.mem_cons.mp hq with hqa | hqr
      · by_cases hle : a.2.last_access ≤ r.2.last_access
        · rw [if_pos hle] at h
          injection h with h
          rw [← h, hqa]
        · rw [if_neg hle] at h
          injection h with h
          rw [← h, hqa]
          exact le_of_lt (lt_of_not_le hle)
      · have hq_le := ih hr q hqr
        by_cases hle : a.2.last_access ≤ r.2.last_access
        · rw [if_pos hle] at h
          injection h with h
          rw [← h]
          exact le_trans hle hq_le
        · rw [if_neg hle] at h
          injection h with h
          rw [← h]
          exact hq_le

/-! ### Step lemmas for the operations -/

theorem evictIfFull_not_full {c : LruCache K V} (h : c.map.length ≠ c.limit) :
    evictIfFull c = some c.map := by
  simp [evictIfFull, h]

theorem evictIfFull_full {c : LruCache K V} {oldest : K × CacheEntry V}
    (h : c.map.length = c.limit) (hmin : minByLastAccess c.map = some oldest) :
    evictIfFull c = some (removeKey c.map oldest.1) := by
  simp [evictIfFull, h, hmin]

theorem insert_def (c : LruCache K V) (now : Nat) (k : K) (v : V) :
    c.insert now k v = (evictIfFull c).map (fun m =>
      ((storeEntry m k { last_access := now, arc := v }).1,
       { c with map := (storeEntry m k { last_access := now, arc := v }).2 })) := by
  cases h : evictIfFull c <;> simp [LruCache.insert, h]

theorem insert_some_shape {c : LruCache K V} {now : Nat} {k : K} {v : V}
    {r : Option V} {c' : LruCache K V} (h : c.insert now k v = some (r, c')) :
    ∃ m, evictIfFull c = some m
      ∧ r = (storeEntry m k { last_access := now, arc := v }).1
      ∧ c' = { c with map := (storeEntry m k { last_access := now, arc := v }).2 } := by
  rw [insert_def] at h
  cases he : evictIfFull c with
  | none => rw [he] at h; exact Option.noConfusion h
  | some m =>
    rw [he] at h
    simp only [Option.map, Option.some.injEq, Prod.mk.injEq] at h
    exact ⟨m, rfl, h.1.symm, h.2.symm⟩

theorem get_hit {c : LruCache K V} {k : K} {e : CacheEntry V} (now : Nat)
    (h : lookupEntry c.map k = some e) :
    c.get now k = (some e.arc, { c with map := touchEntry c.map k now }) := by
  simp [LruCache.get, h]

theorem get_miss {c : LruCache K V} {k : K} (now : Nat)
    (h : lookupEntry c.map k = none) : c.get now k = (none, c) := by
  simp [LruCache.get, h]

theorem insert_not_full_present {c : LruCache K V} {k : K} {old : CacheEntry V}
    (now : Nat) (v : V) (hfull : c.map.length ≠ c.limit)
    (hk : lookupEntry c.map k = some old) :
    c.insert now k v = some (some old.arc,
      { c with map := replaceEntry c.map k { last_access := now, arc := v } }) := by
  rw [insert_def, evictIfFull_not_full hfull]
  simp [storeEntry, hk]

theorem insert_not_full_absent {c : LruCache K V} {k : K}
    (now : Nat) (v : V) (hfull : c.map.length ≠ c.limit)
    (hk : lookupEntry c.map k = none) :
    c.insert now k v = some (none,
      { c with map := c.map ++ [(k, { last_access := now, arc := v })] }) := by
  rw [insert_def, evictIfFull_not_full hfull]
  simp [storeEntry, hk]

theorem run_cons {c : LruCache K V} {op : Op K V} {ops : List (Op K V)} :
    run c (op :: ops) = (runStep c op).bind (fun c' => run c' ops) := by
  cases h : runStep c op <;> simp [run, h]

theorem run_append (c : LruCache K V) (l1 l2 : List (Op K V)) :
    run c (l1 ++ l2) = (run c l1).bind (fun c' => run c' l2) := by
  induction l1 generalizing c with
  | nil => simp [run]
  | cons op rest ih =>
    rw [List.cons_append, run_cons, run_cons]
    cases h : runStep c op <;> simp [ih]

/-! ### Reachability invariants -/

/-- Well-formedness that every reachable cache maintains: keys are unique
(a `HashMap` invariant) and the store never exceeds the limit. -/
structure WF (c : LruCache K V) : Prop where
  nodup : (c.map.map Prod.fst).Nodup
  size_le : c.map.length ≤ c.limit

theorem length_storeEntry (m : List (K × CacheEntry V)) (k : K)
    (e : CacheEntry V) : (storeEntry m k e).2.length ≤ m.length + 1 := by
  rw [storeEntry]
  cases h : lookupEntry m k <;> simp [length_replaceEntry]

theorem nodup_storeEntry {m : List (K × CacheEntry V)} {k : K}
    {e : CacheEntry V} (h : (m.map Prod.fst).Nodup) :
    ((storeEntry m k e).2.map Prod.fst).Nodup := by
  rw [storeEntry]
  cases hl : lookupEntry m k with
  | some old => simpa [keys_replaceEntry] using h
  | none =>
    have hk : k ∉ m.map Prod.fst := lookupEntry_eq_none_iff.mp hl
    simp [List.nodup_append, h, hk]

theorem evictIfFull_nodup {c : LruCache K V} {m : List (K × CacheEntry V)}
    (hnd : (c.map.map Prod.fst).Nodup) (h : evictIfFull c = some m) :
    (m.map Prod.fst).Nodup := by
  rw [evictIfFull] at h
  by_cases hfull : c.map.length = c.limit
  · rw [if_pos hfull] at h
    cases hmin : minByLastAccess c.map with
    | none => rw [hmin] at h; exact Option.noConfusion h
    | some oldest =>
      rw [hmin] at h
      injection h with h
      rw [← h]
      exact hnd.sublist (keys_removeKey_sublist _ _)
  · rw [if_neg hfull] at h
    injection h with h
    rw [← h]
    exact hnd

theorem evictIfFull_length {c : LruCache K V} {m : List (K × CacheEntry V)}
    (hle : c.map.length ≤ c.limit) (h : evictIfFull c = some m) :
    m.length < c.limit := by
  rw [evictIfFull] at h
  by_cases hfull : c.map.length = c.limit
  · rw [if_pos hfull] at h
    cases hmin : minByLastAccess c.map with
    | none => rw [hmin] at h; exact Option.noConfusion h
    | some oldest =>
      rw [hmin] at h
      injection h with h
      have hmem : oldest.1 ∈ c.map.map Prod.fst :=
        List.mem_map_of_mem Prod.fst (minByLastAccess_mem hmin)
      have hlen := length_removeKey_of_mem hmem
      rw [← h]
      omega
  · rw [if_neg hfull] at h
    injection h with h
    rw [← h]
    omega

theorem runStep_limit {c c' : LruCache K V} {op : Op K V}
    (h : runStep c op = some c') : c'.limit = c.limit := by
  cases op with
  | ins now k v =>
    simp only [runStep] at h
    cases hi : c.insert now k v with
    | none => rw [hi] at h; exact Option.noConfusion h
    | some p =>
      obtain ⟨r, c''⟩ := p
      rw [hi] at h
      simp only [Option.map, Option.some.injEq] at h
      obtain ⟨m, _, _, hc⟩ := insert_some_shape hi
      rw [← h, hc]
  | read now k =>
    simp only [runStep, Option.some.injEq] at h
    rw [← h]
    cases hl : lookupEntry c.map k with
    | some e => rw [get_hit now hl]
    | none => rw [get_miss now hl]

theorem runStep_WF {c c' : LruCache K V} {op : Op K V} (hwf : WF c)
    (h : runStep c op = some c') : WF c' := by
  cases op with
  | read now k =>
    simp only [runStep, Option.some.injEq] at h
    rw [← h]
    cases hl : lookupEntry c.map k with
    | some e =>
      rw [get_hit now hl]
      exact ⟨by simpa [keys_touchEntry] using hwf.nodup,
             by simpa [length_touchEntry] using hwf.size_le⟩
    | none =>
      rw [get_miss now hl]
      exact hwf
  | ins now k v =>
    simp only [runStep] at h
    cases hi : c.insert now k v with
    | none => rw [hi] at h; exact Option.noConfusion h
    | some p =>
      obtain ⟨r, c''⟩ := p
      rw [hi] at h
      simp only [Option.map, Option.some.injEq] at h
      obtain ⟨m, he, _, hc⟩ := insert_some_shape hi
      rw [← h, hc]
      constructor
      · exact nodup_storeEntry (evictIfFull_nodup hwf.nodup he)
      · have h1 := length_storeEntry m k { last_access := now, arc := v }
        have h2 := evictIfFull_length hwf.size_le he
        simp only []
        omega

theorem run_WF : ∀ {ops : List (Op K V)} {c c' : LruCache K V}, WF c →
    run c ops = some c' → WF c' := by
  intro ops
  induction ops with
  | nil =>
    intro c c' hwf h
    simp only [run, Option.some.injEq] at h
    rw [← h]
    exact hwf
  | cons op rest ih =>
    intro c c' hwf h
    rw [run_cons] at h
    cases hs : runStep c op with
    | none => rw [hs] at h; exact Option.noConfusion h
    | some cmid =>
      rw [hs] at h
      exact ih (runStep_WF hwf hs) h

theorem run_limit : ∀ {ops : List (Op K V)} {c c' : LruCache K V},
    run c ops = some c' → c'.limit = c.limit := by
  intro ops
  induction ops with
  | nil =>
    intro c c' h
    simp only [run, Option.some.injEq] at h
    rw [← h]
  | cons op rest ih =>
    intro c c' h
    rw [run_cons] at h
    cases hs : runStep c op with
    | none => rw [hs] at h; exact Option.noConfusion h
    | some cmid =>
      rw [hs] at h
      rw [ih h, runStep_limit hs]

theorem with_limit_some {limit : Nat} {c0 : LruCache K V}
    (h : with_limit K V limit = some c0) :
    c0 = { limit := limit, map := [] } ∧ limit ≠ 0 := by
  rw [with_limit] at h
  by_cases hz : limit ≠ 0
  · rw [if_pos hz] at h
    injection h with h
    exact ⟨h.symm, hz⟩
  · rw [if_neg hz] at h
    exact Option.noConfusion h

theorem insert_total {c : LruCache K V} (now : Nat) (k : K) (v : V)
    (hpos : 1 ≤ c.limit) : ∃ r c', c.insert now k v = some (r, c') := by
  rw [insert_def]
  by_cases hfull : c.map.length = c.limit
  · have hne : c.map ≠ [] := by
      intro hnil
      rw [hnil] at hfull
      simp only [List.length_nil] at hfull
      omega
    obtain ⟨p, hp⟩ := minByLastAccess_ne_none hne
    rw [evictIfFull_full hfull hp]
    exact ⟨_, _, rfl⟩
  · rw [evictIfFull_not_full hfull]
    exact ⟨_, _, rfl⟩

theorem run_total : ∀ (ops : List (Op K V)) (c : LruCache K V), 1 ≤ c.limit →
    ∃ c', run c ops = some c' := by
  intro ops
  induction ops with
  | nil => intro c h; exact ⟨c, rfl⟩
  | cons op rest ih =>
    intro c h
    have hs : ∃ cmid, runStep c op = some cmid := by
      cases op with
      | read now k => exact ⟨(c.get now k).2, rfl⟩
      | ins now k v =>
        obtain ⟨r, c', hi⟩ := insert_total now k v h
        exact ⟨c', by simp [runStep, hi]⟩
    obtain ⟨cmid, hcmid⟩ := hs
    obtain ⟨c', hc'⟩ := ih cmid (by rw [runStep_limit hcmid]; exact h)
    exact ⟨c', by rw [run_cons, hcmid]; simpa using hc'⟩

theorem lookupEntry_storeEntry_self (m : List (K × CacheEntry V)) (k : K)
    (e : CacheEntry V) : lookupEntry (storeEntry m k e).2 k = some e := by
  rw [storeEntry]
  cases hl : lookupEntry m k with
  | some old => exact lookupEntry_replaceEntry_self hl
  | none => exact lookupEntry_append_self hl

theorem lookupEntry_storeEntry_other {m : List (K × CacheEntry V)} {j k : K}
    (e : CacheEntry V) (h : j ≠ k) :
    lookupEntry (storeEntry m j e).2 k = lookupEntry m k := by
  rw [storeEntry]
  cases hl : lookupEntry m j with
  | some old => exact lookupEntry_replaceEntry_other h
  | none => exact lookupEntry_append_other h

/-- A call that touches key `k` leaves it present, timestamped with the
call's clock reading. -/
theorem runStep_touch {c c' : LruCache K V} {op : Op K V} {k : K}
    (ht : touchesOp c op k) (hs : runStep c op = some c') :
    ∃ w, lookupEntry c'.map k = some { last_access := opTime op, arc := w } := by
  cases op with
  | read now k' =>
    obtain ⟨hkk, hne⟩ := ht
    subst hkk
    cases hl : lookupEntry c.map k' with
    | none => exact absurd hl hne
    | some old =>
      simp only [runStep, Option.some.injEq] at hs
      rw [← hs, get_hit now hl]
      exact ⟨old.arc, lookupEntry_touchEntry_self now hl⟩
  | ins now k' v =>
    have hkk : k' = k := ht
    subst hkk
    simp only [runStep] at hs
    cases hi : c.insert now k' v with
    | none => rw [hi] at hs; exact Option.noConfusion hs
    | some p =>
      obtain ⟨r, c''⟩ := p
      rw [hi] at hs
      simp only [Option.map, Option.some.injEq] at hs
      obtain ⟨m, _, _, hc⟩ := insert_some_shape hi
      rw [← hs, hc]
      exact ⟨v, lookupEntry_storeEntry_self m k' _⟩

/-- A call that does not touch key `k` cannot create or change `k`'s
entry: if `k` is present afterwards, it was present before with the very
same entry. -/
theorem runStep_frame {c c' : LruCache K V} {op : Op K V} {k : K}
    {e : CacheEntry V} (hnd : (c.map.map Prod.fst).Nodup)
    (hnt : ¬ touchesOp c op k) (hs : runStep c op = some c')
    (he : lookupEntry c'.map k = some e) :
    lookupEntry c.map k = some e := by
  cases op with
  | read now k' =>
    simp only [runStep, Option.some.injEq] at hs
    simp only [touchesOp] at hnt
    by_cases hkk : k' = k
    · subst hkk
      have hmiss : lookupEntry c.map k' = none := by
        by_contra hcon
        exact hnt ⟨rfl, hcon⟩
      rw [← hs, get_miss now hmiss] at he
      rw [he] at hmiss
      exact Option.noConfusion hmiss
    · rw [← hs] at he
      cases hl : lookupEntry c.map k' with
      | some old =>
        rw [get_hit now hl] at he
        rwa [lookupEntry_touchEntry_other now hkk] at he
      | none =>
        rw [get_miss now hl] at he
        exact he
  | ins now k' v =>
    simp only [runStep] at hs
    simp only [touchesOp] at hnt
    cases hi : c.insert now k' v with
    | none => rw [hi] at hs; exact Option.noConfusion hs
    | some p =>
      obtain ⟨r, c''⟩ := p
      rw [hi] at hs
      simp only [Option.map, Option.some.injEq] at hs
      obtain ⟨m, hm, _, hc⟩ := insert_some_shape hi
      rw [← hs, hc] at he
      rw [lookupEntry_storeEntry_other _ hnt] at he
      rw [evictIfFull] at hm
      by_cases hfull : c.map.length = c.limit
      · rw [if_pos hfull] at hm
        cases hmin : minByLastAccess c.map with
        | none => rw [hmin] at hm; exact Option.noConfusion hm
        | some oldest =>
          rw [hmin] at hm
          injection hm with hm
          rw [← hm] at he
          by_cases hok : oldest.1 = k
          · rw [hok] at he
            rw [lookupEntry_removeKey_self hnd] at he
            exact Option.noConfusion he
          · rwa [lookupEntry_removeKey_other hok] at he
      · rw [if_neg hfull] at hm
        injection hm with hm
        rw [← hm] at he
        exact he

/-- Extending a touch-free suffix by one more non-touching call. -/
theorem noTouchRun_append : ∀ {ops : List (Op K V)} {c cEnd : LruCache K V}
    {op : Op K V} {k : K}, noTouchRun c ops k → run c ops = some cEnd →
    ¬ touchesOp cEnd op k → noTouchRun c (ops ++ [op]) k := by
  intro ops
  induction ops with
  | nil =>
    intro c cEnd op k hnt hrun hto
    simp only [run, Option.some.injEq] at hrun
    rw [← hrun] at hto
    exact ⟨hto, fun c' _ => trivial⟩
  | cons op0 rest ih =>
    intro c cEnd op k hnt hrun hto
    obtain ⟨h1, h2⟩ := hnt
    rw [run_cons] at hrun
    cases hs : runStep c op0 with
    | none => rw [hs] at hrun; exact Option.noConfusion hrun
    | some cmid =>
      rw [hs] at hrun
      refine ⟨h1, fun c' hc' => ?_⟩
      have hcc : cmid = c' := by
        rw [hs] at hc'
        injection hc'
      rw [← hcc]
      exact ih (h2 cmid hs) hrun hto

/-! ### The claims -/

/-- C1: for every cache constructed with `with_limit limit` and every
finite sequence of `insert` and `get` calls, after each call completes
the number of entries in the store is at most `limit`. -/
theorem capacity_invariant_run {K V : Type} [DecidableEq K] (limit : Nat)
    (c0 : LruCache K V) (h0 : with_limit K V limit = some c0)
    (ops : List (Op K V)) (c : LruCache K V) (h : run c0 ops = some c) :
    c.map.length ≤ limit := by
  obtain ⟨hc0, _⟩ := with_limit_some h0
  subst hc0
  have hwf := run_WF ⟨by simp, by simp⟩ h
  have hlim := run_limit h
  have hle := hwf.size_le
  rw [hlim] at hle
  exact hle

theorem capacity_invariant_run_witness :
    ({ limit := 1, map := [(1, { last_access := 1, arc := 11 })] }
      : LruCache Nat Nat).map.length ≤ 1 :=
  capacity_invariant_run 1 { limit := 1, map := [] } (by decide)
    [Op.ins 0 0 10, Op.ins 1 1 11]
    { limit := 1, map := [(1, { last_access := 1, arc := 11 })] } (by decide)

/-- C2 counterexample: a full `limit = 1` cache reached by one insertion
holds key `0` with handle `5`; inserting key `0` again (an already-present
key) runs the eviction logic and returns `none` instead of the previous
handle `some 5`, because the eviction check only compares the size with
the limit and ignores same-key replacement. -/
theorem insert_existing_full_cex :
    (with_limit Nat Nat 1).bind (fun c0 => run c0 [Op.ins 0 0 5])
      = some { limit := 1, map := [(0, { last_access := 0, arc := 5 })] }
    ∧ lookupEntry [(0, ({ last_access := 0, arc := 5 } : CacheEntry Nat))] 0
        = some { last_access := 0, arc := 5 }
    ∧ LruCache.insert
        { limit := 1, map := [(0, { last_access := 0, arc := 5 })] } 1 0 7
        = some (none, { limit := 1, map := [(0, { last_access := 1, arc := 7 })] }) := by
  decide

/-- C2 (amended): inserting an already-present key does not trigger the
eviction logic, keeps the store size and key set unchanged, and returns
the previous handle — provided the store is not exactly at `limit`
(when it is, the eviction scan runs first even for a same-key
replacement; see C9). -/
theorem insert_existing_not_full_replaces {K V : Type} [DecidableEq K]
    (c : LruCache K V) (now : Nat) (k : K) (v : V) (old : CacheEntry V)
    (hk : lookupEntry c.map k = some old) (hfull : c.map.length ≠ c.limit) :
    c.insert now k v = some (some old.arc,
      { c with map := replaceEntry c.map k { last_access := now, arc := v } })
    ∧ (replaceEntry c.map k { last_access := now, arc := v }).length
        = c.map.length
    ∧ (replaceEntry c.map k { last_access := now, arc := v }).map Prod.fst
        = c.map.map Prod.fst :=
  ⟨insert_not_full_present now v hfull hk, length_replaceEntry _ _ _,
   keys_replaceEntry _ _ _⟩

theorem insert_existing_not_full_replaces_witness :
    LruCache.insert
        { limit := 2, map := [(0, { last_access := 0, arc := 5 })] } 1 0 7
      = some (some 5,
        { limit := 2, map := replaceEntry [(0, { last_access := 0, arc := 5 })] 0
            { last_access := 1, arc := 7 } })
    ∧ (replaceEntry [(0, ({ last_access := 0, arc := 5 } : CacheEntry Nat))] 0
        { last_access := 1, arc := 7 }).length
        = [(0, ({ last_access := 0, arc := 5 } : CacheEntry Nat))].length
    ∧ (replaceEntry [(0, ({ last_access := 0, arc := 5 } : CacheEntry Nat))] 0
        { last_access := 1, arc := 7 }).map Prod.fst
        = [(0, ({ last_access := 0, arc := 5 } : CacheEntry Nat))].map Prod.fst :=
  insert_existing_not_full_replaces
    { limit := 2, map := [(0, { last_access := 0, arc := 5 })] } 1 0 7
    { last_access := 0, arc := 5 } (by decide) (by decide)

/-- C3: inserting a key that is not present into a store holding exactly
`limit ≥ 1` entries first removes exactly one pre-existing entry, one
whose `last_access` is minimal among all entries present before the call,
and the call returns `none` — the evicted entry's handle is not
returned. -/
theorem insert_full_new_key_evicts_lru {K V : Type} [DecidableEq K]
    (c : LruCache K V) (now : Nat) (k : K) (v : V)
    (hfull : c.map.length = c.limit) (hpos : 1 ≤ c.limit)
    (hk : lookupEntry c.map k = none) :
    ∃ oldest : K × CacheEntry V,
      minByLastAccess c.map = some oldest
      ∧ oldest ∈ c.map
      ∧ (∀ q ∈ c.map, oldest.2.last_access ≤ q.2.last_access)
      ∧ c.insert now k v = some (none,
          { c with map := removeKey c.map oldest.1
              ++ [(k, { last_access := now, arc := v })] })
      ∧ (removeKey c.map oldest.1).length + 1 = c.map.length := by
  have hne : c.map ≠ [] := by
    intro hnil
    rw [hnil] at hfull
    simp only [List.length_nil] at hfull
    omega
  obtain ⟨oldest, hmin⟩ := minByLastAccess_ne_none hne
  have hmem := minByLastAccess_mem hmin
  refine ⟨oldest, hmin, hmem, minByLastAccess_le hmin, ?_, ?_⟩
  · rw [insert_def, evictIfFull_full hfull hmin]
    have hk' : lookupEntry (removeKey c.map oldest.1) k = none :=
      lookupEntry_removeKey_none hk
    simp [storeEntry, hk']
  · exact length_removeKey_of_mem (List.mem_map_of_mem Prod.fst hmem)

theorem insert_full_new_key_evicts_lru_witness :
    ∃ oldest : Nat × CacheEntry Nat,
      minByLastAccess [((0 : Nat), (⟨5, 10⟩ : CacheEntry Nat)), (1, ⟨3, 11⟩)] = some oldest
      ∧ oldest ∈ [((0 : Nat), (⟨5, 10⟩ : CacheEntry Nat)), (1, ⟨3, 11⟩)]
      ∧ (∀ q ∈ [((0 : Nat), (⟨5, 10⟩ : CacheEntry Nat)), (1, ⟨3, 11⟩)], oldest.2.last_access ≤ q.2.last_access)
      ∧ LruCache.insert (⟨2, [(0, ⟨5, 10⟩), (1, ⟨3, 11⟩)]⟩ : LruCache Nat Nat) 7 2 12
          = some (none, ⟨2, removeKey [(0, ⟨5, 10⟩), (1, ⟨3, 11⟩)] oldest.1 ++ [(2, ⟨7, 12⟩)]⟩)
      ∧ (removeKey [((0 : Nat), (⟨5, 10⟩ : CacheEntry Nat)), (1, ⟨3, 11⟩)] oldest.1).length + 1
          = [((0 : Nat), (⟨5, 10⟩ : CacheEntry Nat)), (1, ⟨3, 11⟩)].length :=
  insert_full_new_key_evicts_lru (⟨2, [(0, ⟨5, 10⟩), (1, ⟨3, 11⟩)]⟩ : LruCache Nat Nat) 7 2 12 (by decide) (by decide) (by decide)

/-- C4: `with_limit 0` aborts construction (it yields no cache at all, so
in particular the limit is not silently clamped to `1`); `with_limit l`
for `l ≥ 1` yields an empty cache whose limit is exactly `l`; and the
limit field is never changed by any later sequence of operations. -/
theorem with_limit_zero_fatal_limit_fixed {K V : Type} [DecidableEq K]
    (l : Nat) (hl : 1 ≤ l) (c c' : LruCache K V) (ops : List (Op K V))
    (hrun : run c ops = some c') :
    with_limit K V 0 = none
    ∧ with_limit K V l = some { limit := l, map := [] }
    ∧ c'.limit = c.limit := by
  refine ⟨?_, ?_, run_limit hrun⟩
  · rw [with_limit, if_neg]
    intro hz
    exact hz rfl
  · rw [with_limit, if_pos]
    omega

theorem with_limit_zero_fatal_limit_fixed_witness :
    with_limit Nat Nat 0 = none
    ∧ with_limit Nat Nat 1 = some { limit := 1, map := [] }
    ∧ ({ limit := 1, map := [(0, { last_access := 0, arc := 5 })] }
        : LruCache Nat Nat).limit
      = ({ limit := 1, map := [] } : LruCache Nat Nat).limit :=
  with_limit_zero_fatal_limit_fixed 1 (by decide) { limit := 1, map := [] }
    { limit := 1, map := [(0, { last_access := 0, arc := 5 })] }
    [Op.ins 0 0 5] (by decide)

/-- C5: immediately after an `insert now k v` that completes, `get` of `k`
returns a handle whose referenced value is `v`; and `get` of a key with no
entry in the store (never inserted, or since evicted) returns nothing and
leaves the cache unchanged. -/
theorem insert_get_hit_and_miss {K V : Type} [DecidableEq K]
    (c d : LruCache K V) (now now2 now3 : Nat) (k k2 : K) (v : V)
    (r : Option V) (c' : LruCache K V)
    (h1 : c.insert now k v = some (r, c'))
    (h2 : lookupEntry d.map k2 = none) :
    (c'.get now2 k).1 = some v ∧ d.get now3 k2 = (none, d) := by
  constructor
  · obtain ⟨m, he, hr, hc⟩ := insert_some_shape h1
    rw [hc, get_hit now2 (lookupEntry_storeEntry_self m k _)]
  · exact get_miss now3 h2

theorem insert_get_hit_and_miss_witness :
    (({ limit := 2, map := [(0, { last_access := 0, arc := 5 })] }
        : LruCache Nat Nat).get 1 0).1 = some 5
    ∧ ({ limit := 1, map := [] } : LruCache Nat Nat).get 2 3
        = (none, { limit := 1, map := [] }) :=
  insert_get_hit_and_miss { limit := 2, map := [] } { limit := 1, map := [] }
    0 1 2 0 3 5 none { limit := 2, map := [(0, { last_access := 0, arc := 5 })] }
    (by decide) (by decide)

/-- C6: with `limit = 5`, inserting the six distinct keys `0..5` in order
with strictly increasing timestamps and no intervening reads evicts key
`0`: afterwards `get 0` returns nothing and `get 1` returns key 1's
value. -/
theorem six_inserts_evict_key_zero :
    ((with_limit Nat Nat 5).bind (fun c0 =>
        run c0 [Op.ins 0 0 10, Op.ins 1 1 11, Op.ins 2 2 12,
                Op.ins 3 3 13, Op.ins 4 4 14, Op.ins 5 5 15])).map
      (fun c => ((c.get 6 0).1, ((c.get 6 0).2.get 7 1).1))
      = some (none, some 11) := by
  decide

/-- C7: with `limit = 5`, inserting keys `0..4`, then reading key `0`
(which refreshes its recency), then inserting key `5` — each call at a
strictly later timestamp — keeps key `0` and evicts key `1`: `get 0`
returns its original value and `get 1` returns nothing. -/
theorem refresh_defers_eviction :
    ((with_limit Nat Nat 5).bind (fun c0 =>
        run c0 [Op.ins 0 0 10, Op.ins 1 1 11, Op.ins 2 2 12, Op.ins 3 3 13,
                Op.ins 4 4 14, Op.read 5 0, Op.ins 6 5 15])).map
      (fun c => ((c.get 7 0).1, ((c.get 7 0).2.get 8 1).1))
      = some (some 10, none) := by
  decide

/-- C8: in every cache state reachable from `with_limit`, each entry's
`last_access` equals the clock reading of the most recent call that
touched its key — the insertion that (re)created it or a later successful
`get` hit, whichever came last (a hit refreshes the timestamp in the same
atomic step that returns the handle) — and no later call touched the
key. -/
theorem last_access_most_recent_touch {K V : Type} [DecidableEq K]
    (limit : Nat) (c0 : LruCache K V) (h0 : with_limit K V limit = some c0)
    (ops : List (Op K V)) (c : LruCache K V) (h : run c0 ops = some c)
    (k : K) (e : CacheEntry V) (he : lookupEntry c.map k = some e) :
    ∃ pre op suf cpre cmid,
      ops = pre ++ op :: suf
      ∧ run c0 pre = some cpre
      ∧ touchesOp cpre op k
      ∧ opTime op = e.last_access
      ∧ runStep cpre op = some cmid
      ∧ noTouchRun cmid suf k := by
  obtain ⟨hc0, _⟩ := with_limit_some h0
  subst hc0
  induction ops using List.reverseRecOn generalizing c e with
  | nil =>
    simp only [run, Option.some.injEq] at h
    rw [← h] at he
    simp [lookupEntry] at he
  | append_singleton ops' op ih =>
    rw [run_append] at h
    cases hmid : run { limit := limit, map := [] } ops' with
    | none => rw [hmid] at h; exact Option.noConfusion h
    | some cmid =>
      rw [hmid] at h
      have hstep : runStep cmid op = some c := by
        have h1 : run cmid [op] = some c := h
        rw [run_cons] at h1
        cases hs : runStep cmid op with
        | none => rw [hs] at h1; exact Option.noConfusion h1
        | some cx =>
          rw [hs] at h1
          simp only [Option.some_bind, run, Option.some.injEq] at h1
          rw [h1]
      have hnd : (cmid.map.map Prod.fst).Nodup :=
        (run_WF ⟨by simp, by simp⟩ hmid).nodup
      by_cases ht : touchesOp cmid op k
      · obtain ⟨w, hw⟩ := runStep_touch ht hstep
        refine ⟨ops', op, [], cmid, c, rfl, hmid, ht, ?_, hstep, trivial⟩
        rw [he] at hw
        injection hw with hw
        rw [hw]
      · have hprev : lookupEntry cmid.map k = some e :=
          runStep_frame hnd ht hstep he
        obtain ⟨pre, op0, suf, cpre, cmid0, hsplit, hpre, htouch, htime,
          hstep0, hnt⟩ := ih cmid e hprev hmid
        refine ⟨pre, op0, suf ++ [op], cpre, cmid0, ?_, hpre, htouch, htime,
          hstep0, ?_⟩
        · rw [hsplit]
          simp
        · have hall : run { limit := limit, map := [] } (pre ++ op0 :: suf)
              = some cmid := by
            rw [← hsplit]
            exact hmid
          rw [run_append, hpre] at hall
          have h2 : run cpre (op0 :: suf) = some cmid := hall
          rw [run_cons, hstep0] at h2
          have h3 : run cmid0 suf = some cmid := h2
          exact noTouchRun_append hnt h3 ht

theorem last_access_most_recent_touch_witness :
    ∃ (pre : List (Op Nat Nat)) (op : Op Nat Nat) (suf : List (Op Nat Nat))
      (cpre cmid : LruCache Nat Nat),
      [Op.ins 3 0 9] = pre ++ op :: suf
      ∧ run { limit := 1, map := [] } pre = some cpre
      ∧ touchesOp cpre op 0
      ∧ opTime op = ({ last_access := 3, arc := 9 } : CacheEntry Nat).last_access
      ∧ runStep cpre op = some cmid
      ∧ noTouchRun cmid suf 0 :=
  last_access_most_recent_touch 1 { limit := 1, map := [] } (by decide)
    [Op.ins 3 0 9] { limit := 1, map := [(0, { last_access := 3, arc := 9 })] }
    (by decide) 0 { last_access := 3, arc := 9 } (by decide)

/-- C9: whenever the store holds exactly `limit` entries, `insert` runs
the eviction scan even when the key is already present: if the
minimal-`last_access` entry is the key itself, the call returns `none`
rather than the previous handle (the old entry was just evicted); if it
is a different key, that other entry is evicted and the store ends with
`limit - 1` entries. -/
theorem insert_full_existing_key_evicts {K V : Type} [DecidableEq K]
    (c : LruCache K V) (now : Nat) (k : K) (v : V) (old : CacheEntry V)
    (hfull : c.map.length = c.limit)
    (hk : lookupEntry c.map k = some old)
    (hnd : (c.map.map Prod.fst).Nodup) :
    ∃ oldest : K × CacheEntry V,
      minByLastAccess c.map = some oldest
      ∧ ((oldest.1 = k
          ∧ c.insert now k v = some (none,
              { c with map := removeKey c.map k
                  ++ [(k, { last_access := now, arc := v })] }))
        ∨ (oldest.1 ≠ k
          ∧ ∃ c', c.insert now k v = some (some old.arc, c')
              ∧ c'.map.length + 1 = c.limit)) := by
  have hne : c.map ≠ [] := by
    intro hnil
    rw [hnil] at hk
    simp [lookupEntry] at hk
  obtain ⟨oldest, hmin⟩ := minByLastAccess_ne_none hne
  refine ⟨oldest, hmin, ?_⟩
  by_cases hok : oldest.1 = k
  · left
    refine ⟨hok, ?_⟩
    rw [insert_def, evictIfFull_full hfull hmin, hok]
    have hk' : lookupEntry (removeKey c.map k) k = none :=
      lookupEntry_removeKey_self hnd
    simp [storeEntry, hk']
  · right
    refine ⟨hok, ?_⟩
    have hk' : lookupEntry (removeKey c.map oldest.1) k = some old := by
      rw [lookupEntry_removeKey_other hok]
      exact hk
    refine ⟨{ c with map := replaceEntry (removeKey c.map oldest.1) k ⟨now, v⟩ }, ?_, ?_⟩
    · rw [insert_def, evictIfFull_full hfull hmin]
      simp [storeEntry, hk']
    · show (replaceEntry (removeKey c.map oldest.1) k ⟨now, v⟩).length + 1 = c.limit
      rw [length_replaceEntry, length_removeKey_of_mem
        (List.mem_map_of_mem Prod.fst (minByLastAccess_mem hmin))]
      exact hfull

theorem insert_full_existing_key_evicts_witness :
    ∃ oldest : Nat × CacheEntry Nat,
      minByLastAccess [((0 : Nat), (⟨1, 10⟩ : CacheEntry Nat)), (1, ⟨5, 11⟩)] = some oldest
      ∧ ((oldest.1 = 0
          ∧ LruCache.insert (⟨2, [(0, ⟨1, 10⟩), (1, ⟨5, 11⟩)]⟩ : LruCache Nat Nat) 9 0 7
            = some (none, ⟨2, removeKey [(0, ⟨1, 10⟩), (1, ⟨5, 11⟩)] 0 ++ [(0, ⟨9, 7⟩)]⟩))
        ∨ (oldest.1 ≠ 0
          ∧ ∃ c', LruCache.insert (⟨2, [(0, ⟨1, 10⟩), (1, ⟨5, 11⟩)]⟩ : LruCache Nat Nat) 9 0 7
              = some (some ((⟨1, 10⟩ : CacheEntry Nat).arc), c')
              ∧ c'.map.length + 1 = 2)) :=
  insert_full_existing_key_evicts (⟨2, [(0, ⟨1, 10⟩), (1, ⟨5, 11⟩)]⟩ : LruCache Nat Nat) 9 0 7 ⟨1, 10⟩ (by decide) (by decide) (by decide)

/-- C10: the `unwrap` on the eviction scan inside `insert` never panics:
starting from any cache built by `with_limit` (so `limit ≥ 1`), every
sequence of calls completes — whenever the eviction branch is taken the
store holds `limit ≥ 1` entries, so the map is non-empty and the
minimum-by-`last_access` entry exists. -/
theorem eviction_unwrap_never_panics {K V : Type} [DecidableEq K]
    (limit : Nat) (c0 : LruCache K V) (h0 : with_limit K V limit = some c0)
    (ops : List (Op K V)) : ∃ c, run c0 ops = some c := by
  obtain ⟨hc0, hz⟩ := with_limit_some h0
  subst hc0
  exact run_total ops _ (Nat.one_le_iff_ne_zero.mpr hz)

theorem eviction_unwrap_never_panics_witness :
    ∃ c : LruCache Nat Nat,
      run { limit := 1, map := [] }
        [Op.ins 0 0 10, Op.ins 1 1 11, Op.ins 2 0 12] = some c :=
  eviction_unwrap_never_panics 1 { limit := 1, map := [] } (by decide)
    [Op.ins 0 0 10, Op.ins 1 1 11, Op.ins 2 0 12]

end SyncLru
